import Mathlib

/-!
Verification of the agentoast notification core against its specification.

The notification store (`crates/agentoast-shared/src/db.rs`) is embedded as a
pure state: a SQLite table becomes a list of rows kept in insertion order,
`AUTOINCREMENT` becomes an explicit `nextId` counter, and the
`created_at` wall-clock column becomes a logical clock that advances on every
insert.  The watcher dispatch pipeline (`src-tauri/src/watcher.rs`) is embedded
as pure functions over this state, with the platform oracles (pane visibility,
repo resolution for mutes) abstracted as boolean-valued parameters.
-/

namespace Agentoast

/-- A row of the `notifications` table, as read back by `row_to_notification`
in `db.rs`.  `id` is the AUTOINCREMENT primary key; `created_at` is modelled
as a logical timestamp assigned at insertion time. -/
structure Notification where
  id : Nat
  badge : String
  body : String
  badge_color : String
  icon : String
  metadata : List (String × String)
  repo : String
  tmux_pane : String
  terminal_bundle_id : String
  force_focus : Bool
  is_read : Bool
  created_at : Nat
deriving DecidableEq, Inhabited

/-- The argument list of `insert_notification` in `db.rs` (everything the
caller supplies; `id`, `is_read` and `created_at` are store-assigned). -/
structure InsertArgs where
  badge : String
  body : String
  badge_color : String
  icon : String
  metadata : List (String × String)
  repo : String
  tmux_pane : String
  terminal_bundle_id : String
  force_focus : Bool
deriving DecidableEq, Inhabited

/-- The notification store: the `notifications` table (rows in insertion
order), the next AUTOINCREMENT id, and a logical clock for `created_at`. -/
structure Store where
  rows : List Notification
  nextId : Nat
  clock : Nat
deriving DecidableEq, Inhabited

/-- The freshly created store: empty table, ids start at 1. -/
def emptyStore : Store := { rows := [], nextId := 1, clock := 0 }

/-- The row built by the `INSERT INTO notifications ...` statement of
`insert_notification`: caller fields plus store-assigned `id`, `is_read = 0`
and `created_at = now`. -/
def mkNotif (id clock : Nat) (a : InsertArgs) : Notification :=
  { id := id, badge := a.badge, body := a.body, badge_color := a.badge_color,
    icon := a.icon, metadata := a.metadata, repo := a.repo,
    tmux_pane := a.tmux_pane, terminal_bundle_id := a.terminal_bundle_id,
    force_focus := a.force_focus, is_read := false, created_at := clock }

/-- `insert_notification` (db.rs): inside one transaction, if `tmux_pane` is
non-empty first `DELETE FROM notifications WHERE tmux_pane = ?1`, then insert
the new row; returns `last_insert_rowid()`. -/
def insert_notification (s : Store) (a : InsertArgs) : Store × Nat :=
  ({ rows := (if a.tmux_pane = "" then s.rows
              else s.rows.filter (fun n => decide (n.tmux_pane ≠ a.tmux_pane)))
             ++ [mkNotif s.nextId s.clock a],
     nextId := s.nextId + 1, clock := s.clock + 1 }, s.nextId)

/-- A sequence of inserts applied in order. -/
def insertSeq (s : Store) (ops : List InsertArgs) : Store :=
  ops.foldl (fun t a => (insert_notification t a).1) s

/-- Ascending order on ids (`ORDER BY id ASC`). -/
def idLe (a b : Notification) : Prop := a.id ≤ b.id

instance : DecidableRel idLe := fun a b => inferInstanceAs (Decidable (a.id ≤ b.id))

instance : IsTotal Notification idLe := ⟨fun a b => Nat.le_total a.id b.id⟩

instance : IsTrans Notification idLe := ⟨fun _ _ _ h1 h2 => Nat.le_trans h1 h2⟩

/-- Descending order on creation time (`ORDER BY created_at DESC`). -/
def createdDesc (a b : Notification) : Prop := b.created_at ≤ a.created_at

instance : DecidableRel createdDesc :=
  fun a b => inferInstanceAs (Decidable (b.created_at ≤ a.created_at))

instance : IsTotal Notification createdDesc := ⟨fun a b => Nat.le_total b.created_at a.created_at⟩

instance : IsTrans Notification createdDesc := ⟨fun _ _ _ h1 h2 => Nat.le_trans h2 h1⟩

/-- `get_notifications` (db.rs): `SELECT ... ORDER BY created_at DESC LIMIT ?1`. -/
def get_notifications (s : Store) (limit : Nat) : List Notification :=
  (List.insertionSort createdDesc s.rows).take limit

/-- `get_unread_count` (db.rs): `SELECT COUNT(*) ... WHERE is_read = 0`. -/
def get_unread_count (s : Store) : Nat :=
  (s.rows.filter (fun n => !n.is_read)).length

/-- `delete_notification` (db.rs): `DELETE FROM notifications WHERE id = ?1`. -/
def delete_notification (s : Store) (id : Nat) : Store :=
  { s with rows := s.rows.filter (fun n => decide (n.id ≠ id)) }

/-- `delete_notifications_by_pane` (db.rs): delete by channel, returning the
number of deleted rows. -/
def delete_notifications_by_pane (s : Store) (pane : String) : Store × Nat :=
  ({ s with rows := s.rows.filter (fun n => decide (n.tmux_pane ≠ pane)) },
   (s.rows.filter (fun n => decide (n.tmux_pane = pane))).length)

/-- `delete_notifications_by_panes` (db.rs): if the pane list is empty return
`Ok(0)` without touching the table, else `DELETE ... WHERE tmux_pane IN (...)`,
returning the number of deleted rows. -/
def delete_notifications_by_panes (s : Store) (panes : List String) : Store × Nat :=
  if panes = [] then (s, 0)
  else
    ({ s with rows := s.rows.filter (fun n => !panes.contains n.tmux_pane) },
     (s.rows.filter (fun n => panes.contains n.tmux_pane)).length)

/-- `delete_all_notifications` (db.rs). -/
def delete_all_notifications (s : Store) : Store :=
  { s with rows := [] }

/-- `get_max_id` (db.rs): `SELECT COALESCE(MAX(id), 0)`. -/
def get_max_id (s : Store) : Nat :=
  s.rows.foldr (fun n acc => max n.id acc) 0

/-- `get_notifications_after_id` (db.rs):
`SELECT ... WHERE id > ?1 ORDER BY id ASC`. -/
def get_notifications_after_id (s : Store) (after_id : Nat) : List Notification :=
  List.insertionSort idLe (s.rows.filter (fun n => decide (after_id < n.id)))

/-- Store well-formedness, maintained by every operation: the AUTOINCREMENT
counter is positive and ahead of every existing id, and rows sit in strictly
ascending id order (insertion order = id order). -/
def wf (s : Store) : Prop :=
  0 < s.nextId ∧ (∀ n ∈ s.rows, n.id < s.nextId) ∧
    List.Pairwise (fun a b => a.id < b.id) s.rows

/-! ### Watcher (src-tauri/src/watcher.rs) -/

/-- Watcher state: the shared cursor `LAST_KNOWN_ID` plus the store. -/
structure WState where
  cursor : Nat
  store : Store
deriving DecidableEq, Inhabited

/-- The cursor core of `check_new_notifications` (watcher.rs lines 189-213):
load the cursor, query `get_notifications_after_id`; if the batch is empty
return, otherwise store the last row's id as the new cursor and hand the
batch on. -/
def checkNew (st : WState) : WState × List Notification :=
  let batch := get_notifications_after_id st.store st.cursor
  match batch.getLast? with
  | none => (st, [])
  | some lastN => ({ st with cursor := lastN.id }, batch)

/-- One step of the sequentialized watcher trace: either a producer insert or
an invocation of `check_new_notifications` (from either trigger thread). -/
inductive WStep where
  | ins (a : InsertArgs)
  | check
deriving DecidableEq, Inhabited

/-- Run a trace of watcher steps, collecting the batch handed to the
policy/queue pipeline at each check (empty when the check found nothing). -/
def runSteps : WState → List WStep → WState × List (List Notification)
  | st, [] => (st, [])
  | st, WStep.ins a :: rest => runSteps ⟨st.cursor, (insert_notification st.store a).1⟩ rest
  | st, WStep.check :: rest =>
      let p := checkNew st
      let q := runSteps p.1 rest
      (q.1, p.2 :: q.2)

/-- The watcher state after the first `i` steps of a trace. -/
def stateAt (st0 : WState) (steps : List WStep) (i : Nat) : WState :=
  (runSteps st0 (steps.take i)).1

/-- Two dispatched batches share no row (by id). -/
def batchDisj (b1 b2 : List Notification) : Prop :=
  ∀ n1 ∈ b1, ∀ n2 ∈ b2, n1.id ≠ n2.id

/-- `is_muted` closure of `check_new_notifications`: globally muted wins; with
no muted repos the check short-circuits to false; otherwise a non-empty pane is
resolved to its repo (the `tmux display-message` + `git rev-parse` oracle,
abstracted as `repoOf`) and looked up in the muted set. -/
def is_muted (globalMuted : Bool) (mutedRepos : List String)
    (repoOf : String → Option String) (n : Notification) : Bool :=
  if globalMuted then true
  else if mutedRepos = [] then false
  else if n.tmux_pane ≠ "" then
    match repoOf n.tmux_pane with
    | some repo => mutedRepos.contains repo
    | none => false
  else false

/-- The outcome of one dispatch of `check_new_notifications` on a non-empty
batch: what is emitted where, which terminal (if any) receives the focus side
effect, and which row ids are deleted from the store. -/
structure DispatchResult where
  suppressedIds : List Nat
  toastBatch : List Notification
  normalEmit : List Notification
  mutedFocusEmit : List Notification
  focusTarget : Option Notification
  deletedIds : List Nat
deriving DecidableEq, Inhabited

/-- The policy pipeline of `check_new_notifications` (watcher.rs lines
215-343) on a fetched batch: partition off the visible (suppressed) rows and
delete them; partition the remainder into force-focus and normal; the toast
batch is normal-then-force-focus filtered by the mute predicate; all normal
rows are emitted as records; muted force-focus rows are demoted to record
emission; the last active force-focus row (if any) gets the terminal-focus
side effect and all active force-focus rows are deleted. -/
def dispatch (batch : List Notification)
    (isVisible isMuted : Notification → Bool) : DispatchResult :=
  let suppressed := (batch.partition isVisible).1
  let remaining := (batch.partition isVisible).2
  let focus := (remaining.partition (fun n => n.force_focus)).1
  let normal := (remaining.partition (fun n => n.force_focus)).2
  let filteredToast := (normal ++ focus).filter (fun n => !isMuted n)
  let mutedFocus := (focus.partition isMuted).1
  let activeFocus := (focus.partition isMuted).2
  { suppressedIds := suppressed.map (fun n => n.id)
    toastBatch := filteredToast
    normalEmit := normal
    mutedFocusEmit := mutedFocus
    focusTarget := activeFocus.getLast?
    deletedIds := suppressed.map (fun n => n.id) ++ activeFocus.map (fun n => n.id) }

/-- The per-row `db::delete_notification` loop the watcher runs over
suppressed and consumed force-focus rows. -/
def deleteEach (s : Store) (ids : List Nat) : Store :=
  ids.foldl delete_notification s

/-- One full cycle of `check_new_notifications`, error path included: a failed
`get_notifications_after_id` is logged and the function returns (cursor and
store untouched, nothing dispatched); on success an empty batch also returns;
otherwise the cursor advances, the policy pipeline runs, and its deletions are
applied to the store. -/
def check_cycle (fail : Bool) (isVisible isMuted : Notification → Bool)
    (cursor : Nat) (s : Store) : Nat × Store × Option DispatchResult :=
  if fail then (cursor, s, none)
  else
    let batch := get_notifications_after_id s cursor
    match batch.getLast? with
    | none => (cursor, s, none)
    | some lastN =>
        let d := dispatch batch isVisible isMuted
        (lastN.id, deleteEach s d.deletedIds, some d)

/-- The queue fields of `ToastState` (src-tauri/src/native_toast.rs): the
pending notifications, the index of the one being displayed, and whether the
panel is visible.  The `duration_ms` and `persistent` timer-configuration
fields are omitted: they drive the auto-advance timers, not the queue
contents. -/
structure ToastState where
  queue : List Notification
  current_index : Nat
  is_visible : Bool
deriving DecidableEq, Inhabited

/-- `show_notifications` (native_toast.rs): an empty batch returns with the
state untouched; while the queue is empty or the panel hidden, the queue is
replaced by the batch reversed (LIFO, newest first) at index 0 and the panel
shown; otherwise the not-yet-displayed remainder (`queue[current_index..]`)
is kept minus every entry whose channel matches an incoming notification's
non-empty channel, the reversed batch is prepended, and the index resets
to 0. -/
def show_notifications (st : ToastState) (notifications : List Notification) :
    ToastState :=
  if notifications = [] then st
  else if st.queue = [] || !st.is_visible then
    { queue := notifications.reverse, current_index := 0, is_visible := true }
  else
    { st with
      queue := notifications.reverse ++
        (st.queue.drop st.current_index).filter
          (fun q => !(notifications.any
            (fun n => n.tmux_pane != "" && q.tmux_pane == n.tmux_pane)))
      current_index := 0 }

/-! ### CLI metadata parsing (crates/agentoast-cli) -/

/-- `str::split_once` on a character: split at the first occurrence, returning
the parts before and after it. -/
def splitOnceAux (c : Char) : List Char → Option (List Char × List Char)
  | [] => none
  | x :: xs =>
    if x = c then some ([], xs)
    else
      match splitOnceAux c xs with
      | none => none
      | some p => some (x :: p.1, p.2)

/-- `entry.split_once(c)` from the Rust standard library. -/
def splitOnce (s : String) (c : Char) : Option (String × String) :=
  match splitOnceAux c s.data with
  | none => none
  | some p => some (String.mk p.1, String.mk p.2)

/-- `HashMap::insert`: bind `k` to `v`, replacing any previous binding
(the map is modelled as an association list with unique keys). -/
def mapInsert (m : List (String × String)) (k v : String) : List (String × String) :=
  m.filter (fun p => p.1 != k) ++ [(k, v)]

/-- The loop body of `parse_metadata`, iterating over the argument list with
the map accumulated so far: a well-formed `KEY=VALUE` entry is inserted, an
entry without `=` is skipped with a warning. -/
def parseFrom (m : List (String × String)) : List String → List (String × String)
  | [] => m
  | entry :: rest =>
      match splitOnce entry '=' with
      | some kv => parseFrom (mapInsert m kv.1 kv.2) rest
      | none => parseFrom m rest

/-- `parse_metadata` (agentoast-cli `main.rs` / `hooks/mod.rs`): fold the
argument list over an initially empty map. -/
def parse_metadata (meta_args : List String) : List (String × String) :=
  parseFrom [] meta_args

/-- The rows of the store living on channel `c` (`WHERE tmux_pane = c`). -/
def channelRows (c : String) (s : Store) : List Notification :=
  s.rows.filter (fun n => decide (n.tmux_pane = c))

/-- The index of the last insert for channel `c` in a sequence of inserts,
if any. -/
def lastIdx (c : String) : List InsertArgs → Option Nat
  | [] => none
  | a :: tl =>
      match lastIdx c tl with
      | some k => some (k + 1)
      | none => if a.tmux_pane = c then some 0 else none

/-! ### Concrete inputs used by witnesses and counterexamples -/

/-- A typical producer insert for a given badge, channel and force-focus flag. -/
def exArgs (badge pane : String) (ff : Bool) : InsertArgs :=
  { badge := badge, body := "done", badge_color := "green", icon := "agentoast",
    metadata := [], repo := "r", tmux_pane := pane,
    terminal_bundle_id := "com.example.term", force_focus := ff }

/-- Two inserts on the same channel, demonstrating channel exclusivity. -/
def exOpsC1 : List InsertArgs := [exArgs "first" "p" false, exArgs "second" "p" false]

/-- A store holding one row, obtained by a single insert. -/
def exStoreOne : Store := insertSeq emptyStore [exArgs "only" "p" false]

/-- A store holding a force-focus row (id 1) and a normal row (id 2) on
distinct channels: the input refuting the ascending-order claim for mixed
toast batches. -/
def exStoreMixed : Store :=
  insertSeq emptyStore [exArgs "ff" "a" true, exArgs "plain" "b" false]

/-- A store holding two force-focus rows on distinct channels. -/
def exStoreC4 : Store :=
  insertSeq emptyStore [exArgs "f1" "a" true, exArgs "f2" "b" true]

/-- The three inserts A, B, C of the LIFO display-order scenario. -/
def exOpsLifo : List InsertArgs :=
  [exArgs "A" "p1" false, exArgs "B" "p2" false, exArgs "C" "p3" false]

/-- A short watcher trace: check, two inserts, check, insert, check. -/
def exTrace : List WStep :=
  [WStep.check, WStep.ins (exArgs "A" "p1" false), WStep.ins (exArgs "B" "p2" false),
   WStep.check, WStep.ins (exArgs "C" "p1" false), WStep.check]

/-- Metadata argument list with one malformed entry. -/
def exMeta : List String := ["branch=main", "oops", "model=opus"]

/-! ## Store well-formedness -/

theorem wf_emptyStore : wf emptyStore := by
  refine ⟨Nat.one_pos, ?_, ?_⟩ <;> simp [emptyStore]

theorem wf_insert (s : Store) (a : InsertArgs) (h : wf s) :
    wf (insert_notification s a).1 := by
  obtain ⟨h1, h2, h3⟩ := h
  have hsub : ∀ n : Notification,
      n ∈ (if a.tmux_pane = "" then s.rows
           else s.rows.filter (fun n => decide (n.tmux_pane ≠ a.tmux_pane))) →
      n ∈ s.rows := by
    intro n hn
    split at hn
    · exact hn
    · exact List.mem_of_mem_filter hn
  have hpw : List.Pairwise (fun x y : Notification => x.id < y.id)
      (if a.tmux_pane = "" then s.rows
       else s.rows.filter (fun n => decide (n.tmux_pane ≠ a.tmux_pane))) := by
    split
    · exact h3
    · exact h3.filter _
  refine ⟨Nat.succ_pos _, ?_, ?_⟩
  · intro n hn
    simp only [insert_notification, List.mem_append, List.mem_singleton] at hn
    rcases hn with hn | rfl
    · exact Nat.lt_succ_of_lt (h2 n (hsub n hn))
    · exact Nat.lt_succ_self _
  · show List.Pairwise _ (_ ++ [mkNotif s.nextId s.clock a])
    rw [List.pairwise_append]
    refine ⟨hpw, List.pairwise_singleton _ _, ?_⟩
    intro x hx y hy
    simp only [List.mem_singleton] at hy
    subst hy
    exact h2 x (hsub x hx)

theorem wf_insertSeq (ops : List InsertArgs) :
    ∀ s : Store, wf s → wf (insertSeq s ops) := by
  induction ops with
  | nil => intro s h; exact h
  | cons a tl ih =>
      intro s h
      exact ih _ (wf_insert s a h)

theorem wf_delete (s : Store) (i : Nat) (h : wf s) : wf (delete_notification s i) := by
  obtain ⟨h1, h2, h3⟩ := h
  exact ⟨h1, fun n hn => h2 n (List.mem_of_mem_filter hn), h3.filter _⟩

theorem wf_deleteEach (ids : List Nat) :
    ∀ s : Store, wf s → wf (deleteEach s ids) := by
  induction ids with
  | nil => intro s h; exact h
  | cons i tl ih =>
      intro s h
      exact ih _ (wf_delete s i h)

theorem deleteEach_rows (ids : List Nat) :
    ∀ s : Store, (deleteEach s ids).rows = s.rows.filter (fun n => !ids.contains n.id) := by
  induction ids with
  | nil => intro s; simp [deleteEach]
  | cons i tl ih =>
      intro s
      have : deleteEach s (i :: tl) = deleteEach (delete_notification s i) tl := rfl
      rw [this, ih]
      simp only [delete_notification, List.filter_filter]
      apply List.filter_congr
      intro n _
      by_cases hni : n.id = i <;> simp [hni]

theorem deleteEach_nextId (ids : List Nat) :
    ∀ s : Store, (deleteEach s ids).nextId = s.nextId := by
  induction ids with
  | nil => intro s; rfl
  | cons i tl ih => intro s; exact ih (delete_notification s i)

theorem foldr_max_le (l : List Notification) (n : Notification) (hn : n ∈ l) :
    n.id ≤ l.foldr (fun n acc => max n.id acc) 0 := by
  induction l with
  | nil => cases hn
  | cons a tl ih =>
      rw [List.mem_cons] at hn
      rcases hn with rfl | hn
      · exact Nat.le_max_left _ _
      · exact Nat.le_trans (ih hn) (Nat.le_max_right _ _)

theorem foldr_max_lt (l : List Notification) (m : Nat) (h0 : 0 < m)
    (h : ∀ n ∈ l, n.id < m) : l.foldr (fun n acc => max n.id acc) 0 < m := by
  induction l with
  | nil => exact h0
  | cons a tl ih =>
      refine Nat.max_lt.mpr ⟨h a (List.mem_cons_self a tl), ?_⟩
      exact ih fun n hn => h n (List.mem_cons_of_mem a hn)

theorem mem_le_get_max_id (s : Store) (n : Notification) (hn : n ∈ s.rows) :
    n.id ≤ get_max_id s :=
  foldr_max_le s.rows n hn

theorem get_max_id_lt_nextId (s : Store) (h : wf s) : get_max_id s < s.nextId :=
  foldr_max_lt s.rows s.nextId h.1 h.2.1

/-- Under well-formedness the rows are already in ascending id order, so the
`ORDER BY id ASC` query is just a filter of the row list. -/
theorem after_id_eq_filter (s : Store) (K : Nat) (h : wf s) :
    get_notifications_after_id s K = s.rows.filter (fun n => decide (K < n.id)) := by
  obtain ⟨_, _, h3⟩ := h
  unfold get_notifications_after_id
  apply List.Sorted.insertionSort_eq
  have : List.Pairwise (fun a b : Notification => a.id < b.id)
      (s.rows.filter (fun n => decide (K < n.id))) := h3.filter _
  exact this.imp fun hab => Nat.le_of_lt hab

/-! ## C10: delete_by_panes on the empty set -/

/-- C10: `delete_notifications_by_panes` applied to an empty channel set is a
no-op: it returns a deleted-count of 0 and leaves the store (hence every row)
unchanged, issuing no delete at all. -/
theorem delete_by_panes_empty_noop (s : Store) :
    delete_notifications_by_panes s [] = (s, 0) := by
  simp [delete_notifications_by_panes]

/-! ## C9: malformed metadata tolerance -/

theorem parseFrom_filter_valid (l : List String) :
    ∀ m, parseFrom m (l.filter (fun e => (splitOnce e '=').isSome)) = parseFrom m l := by
  induction l with
  | nil => intro m; rfl
  | cons e tl ih =>
      intro m
      cases h : splitOnce e '=' with
      | none => simp [parseFrom, List.filter_cons, h, ih]
      | some kv => simp [parseFrom, List.filter_cons, h, ih]

theorem parseFrom_all_invalid (l : List String) :
    ∀ m, (∀ e ∈ l, splitOnce e '=' = none) → parseFrom m l = m := by
  induction l with
  | nil => intro m _; rfl
  | cons e tl ih =>
      intro m h
      have he := h e (List.mem_cons_self e tl)
      simp only [parseFrom, he]
      exact ih m fun e2 h2 => h e2 (List.mem_cons_of_mem e h2)

theorem mem_keys_mapInsert (m : List (String × String)) (k v : String) :
    k ∈ (mapInsert m k v).map Prod.fst := by
  simp [mapInsert]

theorem keys_mapInsert_mono (m : List (String × String)) (k v k0 : String)
    (h : k0 ∈ m.map Prod.fst) : k0 ∈ (mapInsert m k v).map Prod.fst := by
  by_cases hk : k0 = k
  · subst hk; exact mem_keys_mapInsert m k0 v
  · rcases List.mem_map.mp h with ⟨p, hp, rfl⟩
    refine List.mem_map.mpr ⟨p, ?_, rfl⟩
    simp only [mapInsert, List.mem_append]
    exact Or.inl (List.mem_filter.mpr ⟨hp, by simpa [bne_iff_ne] using hk⟩)

theorem keys_parseFrom_mono (l : List String) :
    ∀ m k0, k0 ∈ m.map Prod.fst → k0 ∈ (parseFrom m l).map Prod.fst := by
  induction l with
  | nil => intro m k0 h; exact h
  | cons e tl ih =>
      intro m k0 h
      cases hsp : splitOnce e '=' with
      | none => simp only [parseFrom, hsp]; exact ih m k0 h
      | some kv =>
          simp only [parseFrom, hsp]
          exact ih _ k0 (keys_mapInsert_mono m kv.1 kv.2 k0 h)

theorem key_in_parseFrom (l : List String) :
    ∀ m e, e ∈ l → ∀ k v, splitOnce e '=' = some (k, v) →
      k ∈ (parseFrom m l).map Prod.fst := by
  induction l with
  | nil => intro m e he; cases he
  | cons e0 tl ih =>
      intro m e he k v hsp
      rw [List.mem_cons] at he
      rcases he with rfl | he
      · simp only [parseFrom, hsp]
        exact keys_parseFrom_mono tl _ k (mem_keys_mapInsert m k v)
      · cases hsp0 : splitOnce e0 '=' with
        | none => simp only [parseFrom, hsp0]; exact ih m e he k v hsp
        | some kv => simp only [parseFrom, hsp0]; exact ih _ e he k v hsp

theorem pair_mem_mapInsert_of_ne (m : List (String × String)) (k v k2 v2 : String)
    (h : (k, v) ∈ m) (hne : k ≠ k2) : (k, v) ∈ mapInsert m k2 v2 := by
  simp only [mapInsert, List.mem_append]
  exact Or.inl (List.mem_filter.mpr ⟨h, by simpa [bne_iff_ne] using hne⟩)

theorem pair_preserved_parseFrom (l : List String) :
    ∀ m k v, (k, v) ∈ m →
      (∀ e ∈ l, ∀ k2 v2, splitOnce e '=' = some (k2, v2) → k2 ≠ k) →
      (k, v) ∈ parseFrom m l := by
  induction l with
  | nil => intro m k v h _; exact h
  | cons e0 tl ih =>
      intro m k v h hne
      cases hsp : splitOnce e0 '=' with
      | none =>
          simp only [parseFrom, hsp]
          exact ih m k v h fun e he => hne e (List.mem_cons_of_mem e0 he)
      | some kv =>
          simp only [parseFrom, hsp]
          refine ih _ k v ?_ fun e he => hne e (List.mem_cons_of_mem e0 he)
          refine pair_mem_mapInsert_of_ne m k v kv.1 kv.2 h ?_
          intro hk
          exact hne e0 (List.mem_cons_self e0 tl) kv.1 kv.2 (by simpa using hsp) hk.symm

theorem pair_in_parseFrom_distinct (l : List String)
    (hd : List.Pairwise (fun e1 e2 => ∀ k1 v1 k2 v2,
      splitOnce e1 '=' = some (k1, v1) → splitOnce e2 '=' = some (k2, v2) → k1 ≠ k2) l) :
    ∀ m e, e ∈ l → ∀ k v, splitOnce e '=' = some (k, v) → (k, v) ∈ parseFrom m l := by
  induction l with
  | nil => intro m e he; cases he
  | cons e0 tl ih =>
      rw [List.pairwise_cons] at hd
      intro m e he k v hsp
      rw [List.mem_cons] at he
      rcases he with rfl | he
      · simp only [parseFrom, hsp]
        refine pair_preserved_parseFrom tl _ k v ?_ ?_
        · simp [mapInsert]
        · intro e2 he2 k2 v2 hsp2
          exact fun hk => hd.1 e2 he2 k v k2 v2 hsp hsp2 hk.symm
      · cases hsp0 : splitOnce e0 '=' with
        | none => simp only [parseFrom, hsp0]; exact ih hd.2 m e he k v hsp
        | some kv => simp only [parseFrom, hsp0]; exact ih hd.2 _ e he k v hsp

/-- C9: every metadata entry without a `=` separator is skipped individually
(removing the invalid entries does not change the parse), a well-formed
`KEY=VALUE` entry always lands in the map (its key is bound, and under
pairwise-distinct keys its exact pair is present), the insert still proceeds
(it returns the fresh id whatever the metadata list was), and an all-invalid
list yields the empty metadata map rather than a failure. -/
theorem parse_metadata_tolerant (l : List String) :
    parse_metadata (l.filter (fun e => (splitOnce e '=').isSome)) = parse_metadata l
    ∧ ((∀ e ∈ l, splitOnce e '=' = none) → parse_metadata l = [])
    ∧ (∀ e ∈ l, ∀ k v, splitOnce e '=' = some (k, v) →
        k ∈ (parse_metadata l).map Prod.fst)
    ∧ ((l.filterMap (fun e => (splitOnce e '=').map Prod.fst)).Nodup →
        ∀ e ∈ l, ∀ k v, splitOnce e '=' = some (k, v) → (k, v) ∈ parse_metadata l)
    ∧ (∀ (s : Store) (a : InsertArgs),
        (insert_notification s { a with metadata := parse_metadata l }).2 = s.nextId) := by
  refine ⟨parseFrom_filter_valid l [], fun h => parseFrom_all_invalid l [] h,
    fun e he k v hsp => key_in_parseFrom l [] e he k v hsp,
    fun hd e he k v hsp => ?_, fun s a => rfl⟩
  rw [List.Nodup, List.pairwise_filterMap] at hd
  refine pair_in_parseFrom_distinct l (hd.imp ?_) [] e he k v hsp
  intro e1 e2 h12 k1 v1 k2 v2 h1 h2
  exact h12 k1 (by simp [h1]) k2 (by simp [h2])

/-- Witness for C9 at the concrete list `["branch=main", "oops", "model=opus"]`:
the malformed entry is skipped while both well-formed pairs are present, and an
all-invalid list parses to the empty map. -/
theorem parse_metadata_tolerant_witness :
    ("branch", "main") ∈ parse_metadata exMeta
    ∧ "model" ∈ (parse_metadata exMeta).map Prod.fst
    ∧ parse_metadata ["x", "y"] = [] := by
  refine ⟨?_, ?_, ?_⟩
  · exact (parse_metadata_tolerant exMeta).2.2.2.1 (by decide) "branch=main"
      (by decide) "branch" "main" (by decide)
  · exact (parse_metadata_tolerant exMeta).2.2.1 "model=opus" (by decide) "model" "opus"
      (by decide)
  · exact (parse_metadata_tolerant ["x", "y"]).2.1 (by decide)

/-! ## C1: channel exclusivity -/

theorem channelRows_insert (s : Store) (a : InsertArgs) (c : String) (hc : c ≠ "") :
    channelRows c (insert_notification s a).1 =
      if a.tmux_pane = c then [mkNotif s.nextId s.clock a] else channelRows c s := by
  simp only [channelRows, insert_notification, List.filter_append]
  by_cases hpc : a.tmux_pane = c
  · rw [if_pos hpc]
    have hpe : ¬a.tmux_pane = "" := by rw [hpc]; exact hc
    rw [if_neg hpe]
    have h1 : (s.rows.filter (fun n => decide (n.tmux_pane ≠ a.tmux_pane))).filter
        (fun n => decide (n.tmux_pane = c)) = [] := by
      rw [List.filter_filter, List.filter_eq_nil_iff]
      intro n _
      by_cases h : n.tmux_pane = c <;> simp [h, hpc]
    rw [h1]
    simp [mkNotif, hpc]
  · rw [if_neg hpc]
    have hca : c ≠ a.tmux_pane := fun h => hpc h.symm
    have h2 : List.filter (fun n => decide (n.tmux_pane = c))
        [mkNotif s.nextId s.clock a] = [] := by
      simp [mkNotif, hpc]
    by_cases hpe : a.tmux_pane = ""
    · rw [if_pos hpe, h2, List.append_nil]
    · rw [if_neg hpe, h2, List.append_nil, List.filter_filter]
      apply List.filter_congr
      intro n _
      by_cases h : n.tmux_pane = c <;> simp [h, hca]

theorem channelRows_insertSeq (c : String) (hc : c ≠ "") (ops : List InsertArgs) :
    ∀ s : Store, channelRows c (insertSeq s ops) =
      match lastIdx c ops with
      | none => channelRows c s
      | some k => [mkNotif (s.nextId + k) (s.clock + k) (ops.getD k default)] := by
  induction ops with
  | nil => intro s; rfl
  | cons a tl ih =>
      intro s
      have hstep : insertSeq s (a :: tl) = insertSeq (insert_notification s a).1 tl := rfl
      rw [hstep, ih]
      cases hlast : lastIdx c tl with
      | some k =>
          simp only [lastIdx, hlast]
          have hnext : (insert_notification s a).1.nextId = s.nextId + 1 := rfl
          have hclock : (insert_notification s a).1.clock = s.clock + 1 := rfl
          rw [hnext, hclock]
          simp [Nat.add_assoc, Nat.add_comm 1 k]
      | none =>
          simp only [lastIdx, hlast]
          rw [channelRows_insert s a c hc]
          by_cases hpc : a.tmux_pane = c
          · simp [hpc]
          · simp [hpc]

/-- C1: for every non-empty channel `c` and every sequence of inserts starting
from the empty store, at most one row on channel `c` exists at any time (after
every prefix of the sequence); and whenever the sequence contains an insert for
`c`, the store afterwards holds exactly one row for `c`, namely the row created
by the last such insert (index `k`, receiving id `1 + k`), and any
sufficiently large `list()` query also contains exactly that row for `c`.
The same-transaction delete is captured by `insert_notification` performing the
channel delete and the insert as a single step. -/
theorem channel_exclusivity (ops : List InsertArgs) (c : String) (hc : c ≠ "") :
    (∀ i : Nat, (channelRows c (insertSeq emptyStore (ops.take i))).length ≤ 1)
    ∧ (∀ k, lastIdx c ops = some k →
        channelRows c (insertSeq emptyStore ops) =
          [mkNotif (1 + k) k (ops.getD k default)]
        ∧ ∀ limit, (insertSeq emptyStore ops).rows.length ≤ limit →
            (get_notifications (insertSeq emptyStore ops) limit).filter
              (fun n => decide (n.tmux_pane = c)) =
              [mkNotif (1 + k) k (ops.getD k default)]) := by
  constructor
  · intro i
    rw [channelRows_insertSeq c hc (ops.take i) emptyStore]
    cases lastIdx c (ops.take i) with
    | none => simp [channelRows, emptyStore]
    | some k => simp
  · intro k hk
    have hrows : channelRows c (insertSeq emptyStore ops) =
        [mkNotif (1 + k) k (ops.getD k default)] := by
      rw [channelRows_insertSeq c hc ops emptyStore, hk]
      simp [emptyStore]
    refine ⟨hrows, ?_⟩
    intro limit hl
    set t := insertSeq emptyStore ops with ht
    have hperm : List.Perm (List.insertionSort createdDesc t.rows) t.rows :=
      List.perm_insertionSort _ _
    have hlen : (List.insertionSort createdDesc t.rows).length = t.rows.length :=
      hperm.length_eq
    have htake : (List.insertionSort createdDesc t.rows).take limit =
        List.insertionSort createdDesc t.rows := by
      apply List.take_of_length_le
      rw [hlen]; exact hl
    rw [get_notifications, htake]
    have hpf : List.Perm ((List.insertionSort createdDesc t.rows).filter
        (fun n => decide (n.tmux_pane = c)))
        (t.rows.filter (fun n => decide (n.tmux_pane = c))) :=
      hperm.filter _
    rw [show t.rows.filter (fun n => decide (n.tmux_pane = c)) = channelRows c t from rfl,
      hrows] at hpf
    exact List.perm_singleton.mp hpf

/-- Witness for C1: two inserts on channel `"p"`; the prefix invariant holds,
and after both inserts the unique `"p"` row is the second insert's row. -/
theorem channel_exclusivity_witness :
    (channelRows "p" (insertSeq emptyStore (exOpsC1.take 1))).length ≤ 1
    ∧ channelRows "p" (insertSeq emptyStore exOpsC1) =
        [mkNotif (1 + 1) 1 (exOpsC1.getD 1 default)]
    ∧ (get_notifications (insertSeq emptyStore exOpsC1) 1).filter
        (fun n => decide (n.tmux_pane = "p")) =
        [mkNotif (1 + 1) 1 (exOpsC1.getD 1 default)] := by
  have h := channel_exclusivity exOpsC1 "p" (by decide)
  refine ⟨h.1 1, (h.2 1 (by decide)).1, (h.2 1 (by decide)).2 1 (by decide)⟩

/-! ## C3: list_after exactness -/

theorem mem_of_getLast_opt {α : Type} (l : List α) (a : α) (h : l.getLast? = some a) :
    a ∈ l := by
  induction l with
  | nil => cases h
  | cons x tl ih =>
      cases tl with
      | nil =>
          have : x = a := by simpa using h
          simp [this]
      | cons y tl2 =>
          rw [List.getLast?_cons_cons] at h
          exact List.mem_cons_of_mem _ (ih h)

theorem getLast_opt_max (l : List Notification)
    (h : List.Pairwise (fun a b => a.id < b.id) l) (m : Notification)
    (hm : l.getLast? = some m) : ∀ x ∈ l, x.id ≤ m.id := by
  induction l with
  | nil => cases hm
  | cons a tl ih =>
      cases tl with
      | nil =>
          have : a = m := by simpa using hm
          subst this
          intro x hx
          have : x = a := by simpa using hx
          simp [this]
      | cons b tl2 =>
          rw [List.getLast?_cons_cons] at hm
          rw [List.pairwise_cons] at h
          intro x hx
          rw [List.mem_cons] at hx
          rcases hx with rfl | hx
          · have hb : b.id ≤ m.id :=
              ih h.2 hm b (List.mem_cons_self b tl2)
            exact Nat.le_trans (Nat.le_of_lt (h.1 b (List.mem_cons_self b tl2))) hb
          · exact ih h.2 hm x hx

/-- C3 counterexample: the claim's final clause fails as stated.  On a store
holding one row with id 1 and cursor 0, a repeated call with the unchanged
cursor and no intervening inserts returns the same non-empty sequence again,
not the empty sequence. -/
theorem list_after_repeat_not_empty :
    get_notifications_after_id exStoreOne 0 = get_notifications_after_id exStoreOne 0
    ∧ get_notifications_after_id exStoreOne 0 ≠ [] := by
  exact ⟨rfl, by decide⟩

/-- C3 (amended): for every cursor `K` and well-formed store, `list_after(K)`
returns exactly the rows with id strictly greater than `K`, in ascending id
order, and never a row with id ≤ K; it is empty precisely when no row has
id > K; a repeated call with an unchanged cursor and no intervening inserts
returns the same (not necessarily empty) sequence, and once the cursor has
advanced to the last returned row's id — or to the store's max id — a repeated
call returns the empty sequence. -/
theorem list_after_exact (s : Store) (K : Nat) (h : wf s) :
    (∀ n, n ∈ get_notifications_after_id s K ↔ n ∈ s.rows ∧ K < n.id)
    ∧ List.Pairwise (fun a b => a.id < b.id) (get_notifications_after_id s K)
    ∧ (∀ n ∈ get_notifications_after_id s K, ¬n.id ≤ K)
    ∧ (get_notifications_after_id s K = [] ↔ ∀ n ∈ s.rows, n.id ≤ K)
    ∧ (∀ lastN, (get_notifications_after_id s K).getLast? = some lastN →
        get_notifications_after_id s lastN.id = [])
    ∧ get_notifications_after_id s (get_max_id s) = [] := by
  have hfil := after_id_eq_filter s K h
  have hmem : ∀ n, n ∈ get_notifications_after_id s K ↔ n ∈ s.rows ∧ K < n.id := by
    intro n
    rw [hfil, List.mem_filter]
    simp
  have hpw : List.Pairwise (fun a b => a.id < b.id) (get_notifications_after_id s K) := by
    rw [hfil]; exact h.2.2.filter _
  have hempty : ∀ M : Nat, (∀ n ∈ s.rows, n.id ≤ M) →
      get_notifications_after_id s M = [] := by
    intro M hM
    rw [after_id_eq_filter s M h, List.filter_eq_nil_iff]
    intro n hn
    simp only [decide_eq_true_eq]
    exact Nat.not_lt.mpr (hM n hn)
  refine ⟨hmem, hpw, ?_, ?_, ?_, ?_⟩
  · intro n hn
    exact Nat.not_le.mpr ((hmem n).mp hn).2
  · constructor
    · intro he n hn
      by_contra hlt
      have : n ∈ get_notifications_after_id s K :=
        (hmem n).mpr ⟨hn, Nat.not_le.mp hlt⟩
      rw [he] at this
      cases this
    · exact hempty K
  · intro lastN hlast
    apply hempty
    intro n hn
    by_cases hK : K < n.id
    · exact getLast_opt_max _ hpw lastN hlast n ((hmem n).mpr ⟨hn, hK⟩)
    · have hmemL : lastN ∈ get_notifications_after_id s K :=
        mem_of_getLast_opt _ lastN hlast
      have : K < lastN.id := ((hmem lastN).mp hmemL).2
      exact Nat.le_trans (Nat.not_lt.mp hK) (Nat.le_of_lt this)
  · exact hempty (get_max_id s) fun n hn => mem_le_get_max_id s n hn

/-- Witness for C3 at a one-row store and cursor 0. -/
theorem list_after_exact_witness :
    List.Pairwise (fun a b => a.id < b.id) (get_notifications_after_id exStoreOne 0)
    ∧ get_notifications_after_id exStoreOne (get_max_id exStoreOne) = [] := by
  have h := list_after_exact exStoreOne 0
    (wf_insertSeq [exArgs "only" "p" false] emptyStore wf_emptyStore)
  exact ⟨h.2.1, h.2.2.2.2.2⟩

/-! ## C2: at-most-once delivery across dispatches -/

theorem mem_insert_rows (s : Store) (a : InsertArgs) (n : Notification)
    (hn : n ∈ (insert_notification s a).1.rows) :
    n ∈ s.rows ∨ n = mkNotif s.nextId s.clock a := by
  simp only [insert_notification, List.mem_append, List.mem_singleton] at hn
  rcases hn with hn | hn
  · left
    split at hn
    · exact hn
    · exact List.mem_of_mem_filter hn
  · right; exact hn

/-- The invariant of the sequentialized watcher: along any trace, the store
stays well-formed, the cursor is monotone and bounded by the id counter,
every dispatched row's id lies in the half-open interval left of the final
cursor, batches are pairwise disjoint and individually strictly ascending,
and every row the cursor has passed is historic (`Q`) or was dispatched. -/
theorem runSteps_spec (steps : List WStep) :
    ∀ (st : WState) (Q : Notification → Prop),
      wf st.store → st.cursor < st.store.nextId →
      (∀ n ∈ st.store.rows, n.id ≤ st.cursor → Q n) →
      wf (runSteps st steps).1.store
      ∧ st.cursor ≤ (runSteps st steps).1.cursor
      ∧ (runSteps st steps).1.cursor < (runSteps st steps).1.store.nextId
      ∧ (∀ b ∈ (runSteps st steps).2, ∀ n ∈ b,
          st.cursor < n.id ∧ n.id ≤ (runSteps st steps).1.cursor)
      ∧ List.Pairwise batchDisj (runSteps st steps).2
      ∧ (∀ b ∈ (runSteps st steps).2, List.Pairwise (fun a b => a.id < b.id) b)
      ∧ (∀ n ∈ (runSteps st steps).1.store.rows, n.id ≤ (runSteps st steps).1.cursor →
          Q n ∨ ∃ b ∈ (runSteps st steps).2, n ∈ b) := by
  induction steps with
  | nil =>
      intro st Q hwf hc hQ
      simp only [runSteps]
      refine ⟨hwf, Nat.le_refl _, hc, by simp, List.Pairwise.nil, by simp, ?_⟩
      intro n hn hle
      exact Or.inl (hQ n hn hle)
  | cons step rest ih =>
      intro st Q hwf hc hQ
      cases step with
      | ins a =>
          have hwf' : wf (insert_notification st.store a).1 := wf_insert _ _ hwf
          have hc' : st.cursor < (insert_notification st.store a).1.nextId :=
            Nat.lt_succ_of_lt hc
          have hQ' : ∀ n ∈ (insert_notification st.store a).1.rows,
              n.id ≤ st.cursor → Q n := by
            intro n hn hle
            rcases mem_insert_rows st.store a n hn with hn | rfl
            · exact hQ n hn hle
            · exact absurd hle (Nat.not_le.mpr hc)
          exact ih ⟨st.cursor, (insert_notification st.store a).1⟩ Q hwf' hc' hQ'
      | check =>
          cases hl : (get_notifications_after_id st.store st.cursor).getLast? with
          | none =>
              have hbe : get_notifications_after_id st.store st.cursor = [] :=
                List.getLast?_eq_none_iff.mp hl
              obtain ⟨h1, h2, h3, h4, h5, h6, h7⟩ := ih st Q hwf hc hQ
              simp only [runSteps, checkNew, hl, hbe]
              refine ⟨h1, h2, h3, ?_, ?_, ?_, ?_⟩
              · intro b hb n hn
                rw [List.mem_cons] at hb
                rcases hb with rfl | hb
                · cases hn
                · exact h4 b hb n hn
              · refine List.Pairwise.cons ?_ h5
                intro b _ n1 hn1
                cases hn1
              · intro b hb
                rw [List.mem_cons] at hb
                rcases hb with rfl | hb
                · exact List.Pairwise.nil
                · exact h6 b hb
              · intro n hn hle
                rcases h7 n hn hle with hq | ⟨b, hb, hnb⟩
                · exact Or.inl hq
                · exact Or.inr ⟨b, List.mem_cons_of_mem _ hb, hnb⟩
          | some lastN =>
              have hfil := after_id_eq_filter st.store st.cursor hwf
              have hlmem : lastN ∈ get_notifications_after_id st.store st.cursor :=
                mem_of_getLast_opt _ lastN hl
              have hlrows : lastN ∈ st.store.rows := by
                rw [hfil] at hlmem
                exact List.mem_of_mem_filter hlmem
              have hcl : st.cursor < lastN.id := by
                rw [hfil] at hlmem
                have := (List.mem_filter.mp hlmem).2
                simpa using this
              have hlid : lastN.id < st.store.nextId := hwf.2.1 lastN hlrows
              have hbpw : List.Pairwise (fun a b => a.id < b.id)
                  (get_notifications_after_id st.store st.cursor) := by
                rw [hfil]; exact hwf.2.2.filter _
              have hmax : ∀ n ∈ get_notifications_after_id st.store st.cursor,
                  n.id ≤ lastN.id := getLast_opt_max _ hbpw lastN hl
              have hQ' : ∀ n ∈ st.store.rows, n.id ≤ lastN.id →
                  (Q n ∨ n ∈ get_notifications_after_id st.store st.cursor) := by
                intro n hn hle
                by_cases hK : st.cursor < n.id
                · refine Or.inr ?_
                  rw [hfil, List.mem_filter]
                  simpa using ⟨hn, hK⟩
                · exact Or.inl (hQ n hn (Nat.not_lt.mp hK))
              obtain ⟨h1, h2, h3, h4, h5, h6, h7⟩ :=
                ih ⟨lastN.id, st.store⟩
                  (fun n => Q n ∨ n ∈ get_notifications_after_id st.store st.cursor)
                  hwf hlid hQ'
              simp only [runSteps, checkNew, hl]
              refine ⟨h1, Nat.le_trans (Nat.le_of_lt hcl) h2, h3, ?_, ?_, ?_, ?_⟩
              · intro b hb n hn
                rw [List.mem_cons] at hb
                rcases hb with rfl | hb
                · exact ⟨by
                    rw [hfil] at hn
                    simpa using (List.mem_filter.mp hn).2,
                    Nat.le_trans (hmax n hn) h2⟩
                · obtain ⟨hgt, hle⟩ := h4 b hb n hn
                  exact ⟨Nat.lt_trans hcl hgt, hle⟩
              · refine List.Pairwise.cons ?_ h5
                intro b hb n1 hn1 n2 hn2
                have hle1 : n1.id ≤ lastN.id := hmax n1 hn1
                have hgt2 : lastN.id < n2.id := (h4 b hb n2 hn2).1
                exact Nat.ne_of_lt (Nat.lt_of_le_of_lt hle1 hgt2)
              · intro b hb
                rw [List.mem_cons] at hb
                rcases hb with rfl | hb
                · exact hbpw
                · exact h6 b hb
              · intro n hn hle
                rcases h7 n hn hle with (hq | hbatch) | ⟨b, hb, hnb⟩
                · exact Or.inl hq
                · exact Or.inr ⟨_, List.mem_cons_self _ _, hbatch⟩
                · exact Or.inr ⟨b, List.mem_cons_of_mem _ hb, hnb⟩

theorem runSteps_append (l1 l2 : List WStep) :
    ∀ st, runSteps st (l1 ++ l2) =
      ((runSteps (runSteps st l1).1 l2).1,
       (runSteps st l1).2 ++ (runSteps (runSteps st l1).1 l2).2) := by
  induction l1 with
  | nil => intro st; simp [runSteps]
  | cons s tl ih =>
      intro st
      cases s with
      | ins a =>
          simp only [List.cons_append, runSteps]
          exact ih _
      | check =>
          simp only [List.cons_append, runSteps]
          rw [show tl.append l2 = tl ++ l2 from rfl, ih]

theorem checkNew_last_gt (st : WState) (lastN : Notification) (h : wf st.store)
    (hl : (get_notifications_after_id st.store st.cursor).getLast? = some lastN) :
    st.cursor < lastN.id := by
  have hfil := after_id_eq_filter st.store st.cursor h
  have hlmem := mem_of_getLast_opt _ lastN hl
  rw [hfil] at hlmem
  have := (List.mem_filter.mp hlmem).2
  simpa using this

theorem checkNew_cursor_some (st : WState) (lastN : Notification)
    (hl : (get_notifications_after_id st.store st.cursor).getLast? = some lastN) :
    (checkNew st).1.cursor = lastN.id := by
  simp [checkNew, hl]

theorem checkNew_cursor_le (st : WState) (h : wf st.store) :
    st.cursor ≤ (checkNew st).1.cursor := by
  cases hl : (get_notifications_after_id st.store st.cursor).getLast? with
  | none => simp [checkNew, hl]
  | some lastN =>
      rw [checkNew_cursor_some st lastN hl]
      exact Nat.le_of_lt (checkNew_last_gt st lastN h hl)

/-- C2: running any interleaving of inserts and `check_new` invocations from a
cursor initialized to `max_id`, no row is handed to the policy/queue pipeline
twice (batches are pairwise disjoint and each batch has no duplicates) and
none is skipped (every row the cursor has passed is either historic — id at
most the initial `max_id` — or belongs to a dispatched batch); the cursor
never decreases, and after every check step that found a non-empty batch the
cursor equals the id of the batch's last row. -/
theorem watcher_at_most_once (s0 : Store) (steps : List WStep) (hwf : wf s0) :
    List.Pairwise batchDisj (runSteps ⟨get_max_id s0, s0⟩ steps).2
    ∧ (∀ b ∈ (runSteps ⟨get_max_id s0, s0⟩ steps).2,
        List.Pairwise (fun a b => a.id < b.id) b)
    ∧ (∀ n ∈ (runSteps ⟨get_max_id s0, s0⟩ steps).1.store.rows,
        n.id ≤ (runSteps ⟨get_max_id s0, s0⟩ steps).1.cursor →
        n.id ≤ get_max_id s0 ∨ ∃ b ∈ (runSteps ⟨get_max_id s0, s0⟩ steps).2, n ∈ b)
    ∧ (∀ i, (stateAt ⟨get_max_id s0, s0⟩ steps i).cursor ≤
        (stateAt ⟨get_max_id s0, s0⟩ steps (i + 1)).cursor)
    ∧ (∀ i, steps[i]? = some WStep.check →
        ∀ lastN, (get_notifications_after_id (stateAt ⟨get_max_id s0, s0⟩ steps i).store
            (stateAt ⟨get_max_id s0, s0⟩ steps i).cursor).getLast? = some lastN →
          (stateAt ⟨get_max_id s0, s0⟩ steps (i + 1)).cursor = lastN.id) := by
  have hc0 : (⟨get_max_id s0, s0⟩ : WState).cursor < (⟨get_max_id s0, s0⟩ : WState).store.nextId :=
    get_max_id_lt_nextId s0 hwf
  have hQ0 : ∀ n ∈ s0.rows, n.id ≤ get_max_id s0 → n.id ≤ get_max_id s0 :=
    fun _ _ h => h
  obtain ⟨_, _, _, _, g5, g6, g7⟩ :=
    runSteps_spec steps ⟨get_max_id s0, s0⟩ (fun n => n.id ≤ get_max_id s0) hwf hc0 hQ0
  refine ⟨g5, g6, g7, ?_, ?_⟩
  · intro i
    have base := runSteps_spec (steps.take i) ⟨get_max_id s0, s0⟩
      (fun n => n.id ≤ get_max_id s0) hwf hc0 hQ0
    have hwfI : wf (stateAt ⟨get_max_id s0, s0⟩ steps i).store := base.1
    show (stateAt ⟨get_max_id s0, s0⟩ steps i).cursor ≤
      (runSteps ⟨get_max_id s0, s0⟩ (steps.take (i + 1))).1.cursor
    rw [List.take_succ, runSteps_append]
    cases hgi : steps[i]? with
    | none => simp [runSteps, stateAt]
    | some step =>
        cases step with
        | ins a => simp [runSteps, stateAt]
        | check =>
            simp only [Option.toList, runSteps]
            exact checkNew_cursor_le _ hwfI
  · intro i hstep lastN hl
    show (runSteps ⟨get_max_id s0, s0⟩ (steps.take (i + 1))).1.cursor = lastN.id
    rw [List.take_succ, runSteps_append, hstep]
    simp only [Option.toList, runSteps]
    exact checkNew_cursor_some _ lastN hl

/-- Witness for C2 on a concrete trace from the empty store: check, two
inserts, check, one insert, one check. -/
theorem watcher_at_most_once_witness :
    List.Pairwise batchDisj (runSteps ⟨get_max_id emptyStore, emptyStore⟩ exTrace).2
    ∧ (stateAt ⟨get_max_id emptyStore, emptyStore⟩ exTrace 3).cursor ≤
      (stateAt ⟨get_max_id emptyStore, emptyStore⟩ exTrace 4).cursor := by
  have h := watcher_at_most_once emptyStore exTrace wf_emptyStore
  exact ⟨h.1, h.2.2.2.1 3⟩

/-! ## The dispatch pipeline as filters -/

theorem dispatch_suppressedIds (batch : List Notification) (isV isM : Notification → Bool) :
    (dispatch batch isV isM).suppressedIds = (batch.filter isV).map (fun n => n.id) := by
  simp only [dispatch, List.partition_eq_filter_filter]

theorem dispatch_normalEmit (batch : List Notification) (isV isM : Notification → Bool) :
    (dispatch batch isV isM).normalEmit =
      (batch.filter (fun n => !isV n)).filter (fun n => !n.force_focus) := by
  simp only [dispatch, List.partition_eq_filter_filter]
  rfl

theorem dispatch_toastBatch (batch : List Notification) (isV isM : Notification → Bool) :
    (dispatch batch isV isM).toastBatch =
      ((batch.filter (fun n => !isV n)).filter (fun n => !n.force_focus)
        ++ (batch.filter (fun n => !isV n)).filter (fun n => n.force_focus)).filter
        (fun n => !isM n) := by
  simp only [dispatch, List.partition_eq_filter_filter]
  rfl

theorem dispatch_mutedFocusEmit (batch : List Notification) (isV isM : Notification → Bool) :
    (dispatch batch isV isM).mutedFocusEmit =
      ((batch.filter (fun n => !isV n)).filter (fun n => n.force_focus)).filter isM := by
  simp only [dispatch, List.partition_eq_filter_filter]
  rfl

theorem dispatch_focusTarget (batch : List Notification) (isV isM : Notification → Bool) :
    (dispatch batch isV isM).focusTarget =
      (((batch.filter (fun n => !isV n)).filter (fun n => n.force_focus)).filter
        (fun n => !isM n)).getLast? := by
  simp only [dispatch, List.partition_eq_filter_filter]
  rfl

theorem dispatch_deletedIds (batch : List Notification) (isV isM : Notification → Bool) :
    (dispatch batch isV isM).deletedIds =
      (batch.filter isV).map (fun n => n.id)
        ++ (((batch.filter (fun n => !isV n)).filter (fun n => n.force_focus)).filter
            (fun n => !isM n)).map (fun n => n.id) := by
  simp only [dispatch, List.partition_eq_filter_filter]
  rfl

theorem pairwise_id_inj (l : List Notification)
    (h : List.Pairwise (fun a b => a.id < b.id) l) (x y : Notification)
    (hx : x ∈ l) (hy : y ∈ l) (hxy : x.id = y.id) : x = y := by
  induction l with
  | nil => cases hx
  | cons a tl ih =>
      rw [List.pairwise_cons] at h
      rw [List.mem_cons] at hx hy
      rcases hx with rfl | hx <;> rcases hy with rfl | hy
      · rfl
      · exact absurd hxy (Nat.ne_of_lt (h.1 y hy))
      · exact absurd hxy.symm (Nat.ne_of_lt (h.1 x hx))
      · exact ih h.2 hx hy

/-! ## C4: force-focus dispatch policy -/

/-- C4: in a dispatch of the batch `list_after(K)`, a force-focus notification
that is not on the active surface and whose mute applies is emitted as an
ordinary record, its id does not appear among the deleted ids, it is not the
focus target, and it is still present in the store afterwards; an unmuted
force-focus notification is deleted (its id is in the deleted set and no row
with its id survives), and the batch's focus target is the single most recent
(maximal-id) unmuted force-focus item — so a batch containing any unmuted
force-focus item triggers exactly one focus side effect, while every other
unmuted force-focus item is still deleted. -/
theorem force_focus_policy (s : Store) (K : Nat) (isV isM : Notification → Bool)
    (n : Notification) (hwf : wf s)
    (hn : n ∈ get_notifications_after_id s K) (hff : n.force_focus = true)
    (hv : isV n = false) :
    (isM n = true →
      n ∈ (dispatch (get_notifications_after_id s K) isV isM).mutedFocusEmit
      ∧ n.id ∉ (dispatch (get_notifications_after_id s K) isV isM).deletedIds
      ∧ (∀ m, (dispatch (get_notifications_after_id s K) isV isM).focusTarget = some m →
          m.id ≠ n.id)
      ∧ n ∈ (deleteEach s
          (dispatch (get_notifications_after_id s K) isV isM).deletedIds).rows)
    ∧ (isM n = false →
      n.id ∈ (dispatch (get_notifications_after_id s K) isV isM).deletedIds
      ∧ (∀ m ∈ (deleteEach s
            (dispatch (get_notifications_after_id s K) isV isM).deletedIds).rows,
          m.id ≠ n.id)
      ∧ ∃ m, (dispatch (get_notifications_after_id s K) isV isM).focusTarget = some m
          ∧ m.force_focus = true ∧ isV m = false ∧ isM m = false
          ∧ m ∈ get_notifications_after_id s K ∧ n.id ≤ m.id) := by
  set batch := get_notifications_after_id s K with hbatch
  have hfil := after_id_eq_filter s K hwf
  have hpw : List.Pairwise (fun a b => a.id < b.id) batch := by
    rw [hbatch, hfil]; exact hwf.2.2.filter _
  have hsub : ∀ x ∈ batch, x ∈ s.rows := by
    intro x hx
    rw [hbatch, hfil] at hx
    exact List.mem_of_mem_filter hx
  have hrem : n ∈ batch.filter (fun x => !isV x) :=
    List.mem_filter.mpr ⟨hn, by simp [hv]⟩
  have hfoc : n ∈ (batch.filter (fun x => !isV x)).filter (fun x => x.force_focus) :=
    List.mem_filter.mpr ⟨hrem, hff⟩
  have hsupdel : ∀ x ∈ batch.filter isV, x.id ≠ n.id := by
    intro x hx hxid
    have hxb : x ∈ batch := List.mem_of_mem_filter hx
    have hx' : isV x = true := (List.mem_filter.mp hx).2
    have : x = n := pairwise_id_inj batch hpw x n hxb hn hxid
    rw [this] at hx'
    rw [hx'] at hv
    cases hv
  constructor
  · intro hm
    have hndel : n.id ∉ (dispatch batch isV isM).deletedIds := by
      rw [dispatch_deletedIds, List.mem_append]
      rintro (hd | hd)
      · obtain ⟨x, hx, hxid⟩ := List.mem_map.mp hd
        exact hsupdel x hx hxid
      · obtain ⟨x, hx, hxid⟩ := List.mem_map.mp hd
        have hxb : x ∈ batch :=
          List.mem_of_mem_filter (List.mem_of_mem_filter (List.mem_of_mem_filter hx))
        have hx' : (!isM x) = true := (List.mem_filter.mp hx).2
        have : x = n := pairwise_id_inj batch hpw x n hxb hn hxid
        rw [this] at hx'
        rw [hm] at hx'
        cases hx'
    refine ⟨?_, hndel, ?_, ?_⟩
    · rw [dispatch_mutedFocusEmit]
      exact List.mem_filter.mpr ⟨hfoc, hm⟩
    · intro m hmfoc hmid
      rw [dispatch_focusTarget] at hmfoc
      have hma := mem_of_getLast_opt _ m hmfoc
      have hmb : m ∈ batch :=
        List.mem_of_mem_filter (List.mem_of_mem_filter (List.mem_of_mem_filter hma))
      have hm' : (!isM m) = true := (List.mem_filter.mp hma).2
      have : m = n := pairwise_id_inj batch hpw m n hmb hn hmid
      rw [this] at hm'
      rw [hm] at hm'
      cases hm'
    · rw [deleteEach_rows]
      refine List.mem_filter.mpr ⟨hsub n hn, ?_⟩
      simp only [Bool.not_eq_true']
      exact (Bool.not_eq_true _).mp fun hcon => hndel (List.elem_iff.mp hcon)
  · intro hm
    have hna : n ∈ ((batch.filter (fun x => !isV x)).filter
        (fun x => x.force_focus)).filter (fun x => !isM x) :=
      List.mem_filter.mpr ⟨hfoc, by simp [hm]⟩
    have hdel : n.id ∈ (dispatch batch isV isM).deletedIds := by
      rw [dispatch_deletedIds, List.mem_append]
      exact Or.inr (List.mem_map.mpr ⟨n, hna, rfl⟩)
    refine ⟨hdel, ?_, ?_⟩
    · intro m hmrows hmid
      rw [deleteEach_rows] at hmrows
      have h2 := (List.mem_filter.mp hmrows).2
      rw [hmid] at h2
      have h3 : (dispatch batch isV isM).deletedIds.contains n.id = true :=
        List.elem_iff.mpr hdel
      rw [h3] at h2
      cases h2
    · have hne : ((batch.filter (fun x => !isV x)).filter
          (fun x => x.force_focus)).filter (fun x => !isM x) ≠ [] :=
        List.ne_nil_of_mem hna
      obtain ⟨m, hml⟩ := Option.isSome_iff_exists.mp (List.getLast?_isSome.mpr hne)
      have hma := mem_of_getLast_opt _ m hml
      have hmrem := List.mem_of_mem_filter (List.mem_of_mem_filter hma)
      have hmb : m ∈ batch := List.mem_of_mem_filter hmrem
      have hmv : isV m = false := by
        have := (List.mem_filter.mp hmrem).2
        simpa using this
      have hmff : m.force_focus = true :=
        (List.mem_filter.mp (List.mem_of_mem_filter hma)).2
      have hmm : isM m = false := by
        have := (List.mem_filter.mp hma).2
        simpa using this
      have hapw : List.Pairwise (fun a b => a.id < b.id)
          (((batch.filter (fun x => !isV x)).filter
            (fun x => x.force_focus)).filter (fun x => !isM x)) :=
        ((hpw.filter _).filter _).filter _
      refine ⟨m, by rw [dispatch_focusTarget]; exact hml, hmff, hmv, hmm, hmb, ?_⟩
      exact getLast_opt_max _ hapw m hml n hna

/-- Witness for C4 on a store with two unmuted force-focus rows: the first row
is deleted on the unmuted path, and is demoted to a record emit when muted. -/
theorem force_focus_policy_witness :
    (mkNotif 1 0 (exArgs "f1" "a" true)).id ∈
      (dispatch (get_notifications_after_id exStoreC4 0)
        (fun _ => false) (fun _ => false)).deletedIds
    ∧ mkNotif 1 0 (exArgs "f1" "a" true) ∈
      (dispatch (get_notifications_after_id exStoreC4 0)
        (fun _ => false) (fun _ => true)).mutedFocusEmit := by
  have hwf : wf exStoreC4 :=
    wf_insertSeq [exArgs "f1" "a" true, exArgs "f2" "b" true] emptyStore wf_emptyStore
  refine ⟨((force_focus_policy exStoreC4 0 (fun _ => false) (fun _ => false)
      (mkNotif 1 0 (exArgs "f1" "a" true)) hwf (by decide) (by decide) rfl).2 rfl).1,
    ((force_focus_policy exStoreC4 0 (fun _ => false) (fun _ => true)
      (mkNotif 1 0 (exArgs "f1" "a" true)) hwf (by decide) (by decide) rfl).1 rfl).1⟩

/-! ## C5: active-surface suppression -/

theorem insertSeq_no_id (ops : List InsertArgs) :
    ∀ (s : Store) (j : Nat), wf s → j < s.nextId → (∀ m ∈ s.rows, m.id ≠ j) →
      ∀ m ∈ (insertSeq s ops).rows, m.id ≠ j := by
  induction ops with
  | nil => intro s j _ _ h m hm; exact h m hm
  | cons a tl ih =>
      intro s j hwf hj h
      apply ih (insert_notification s a).1 j (wf_insert s a hwf) (Nat.lt_succ_of_lt hj)
      intro m hm
      rcases mem_insert_rows s a m hm with hm | rfl
      · exact h m hm
      · exact (Nat.ne_of_lt hj).symm

theorem mem_get_notifications (s : Store) (limit : Nat) (m : Notification)
    (hm : m ∈ get_notifications s limit) : m ∈ s.rows := by
  unfold get_notifications at hm
  exact (List.perm_insertionSort createdDesc s.rows).subset (List.take_subset _ _ hm)

/-- C5: a notification of the dispatched batch whose surface is reported
visible and focused is deleted immediately (its id is in the deleted set), is
never delivered (absent from the toast batch, both record emits, and the focus
target), and from the post-dispatch store onwards — under any further sequence
of inserts — no row carries its id, so it appears in no later `list()` result
and contributes nothing to `count_unread()`. -/
theorem active_surface_suppression (s : Store) (K : Nat)
    (isV isM : Notification → Bool) (n : Notification) (hwf : wf s)
    (hn : n ∈ get_notifications_after_id s K) (hv : isV n = true) :
    n.id ∈ (dispatch (get_notifications_after_id s K) isV isM).deletedIds
    ∧ n ∉ (dispatch (get_notifications_after_id s K) isV isM).toastBatch
    ∧ n ∉ (dispatch (get_notifications_after_id s K) isV isM).normalEmit
    ∧ n ∉ (dispatch (get_notifications_after_id s K) isV isM).mutedFocusEmit
    ∧ (∀ m, (dispatch (get_notifications_after_id s K) isV isM).focusTarget = some m →
        m.id ≠ n.id)
    ∧ (∀ ops, ∀ m ∈ (insertSeq (deleteEach s
          (dispatch (get_notifications_after_id s K) isV isM).deletedIds) ops).rows,
        m.id ≠ n.id)
    ∧ (∀ ops limit, ∀ m ∈ get_notifications (insertSeq (deleteEach s
          (dispatch (get_notifications_after_id s K) isV isM).deletedIds) ops) limit,
        m.id ≠ n.id)
    ∧ (∀ ops, get_unread_count (insertSeq (deleteEach s
          (dispatch (get_notifications_after_id s K) isV isM).deletedIds) ops) =
        ((insertSeq (deleteEach s
          (dispatch (get_notifications_after_id s K) isV isM).deletedIds) ops).rows.filter
          (fun r => !r.is_read && r.id != n.id)).length) := by
  set batch := get_notifications_after_id s K with hbatch
  have hfil := after_id_eq_filter s K hwf
  have hpw : List.Pairwise (fun a b => a.id < b.id) batch := by
    rw [hbatch, hfil]; exact hwf.2.2.filter _
  have hsub : ∀ x ∈ batch, x ∈ s.rows := by
    intro x hx
    rw [hbatch, hfil] at hx
    exact List.mem_of_mem_filter hx
  have hsup : n ∈ batch.filter isV := List.mem_filter.mpr ⟨hn, hv⟩
  have hdel : n.id ∈ (dispatch batch isV isM).deletedIds := by
    rw [dispatch_deletedIds, List.mem_append]
    exact Or.inl (List.mem_map.mpr ⟨n, hsup, rfl⟩)
  have hnotrem : n ∉ batch.filter (fun x => !isV x) := by
    intro hmem
    have := (List.mem_filter.mp hmem).2
    rw [hv] at this
    cases this
  have hafter : ∀ m ∈ (deleteEach s (dispatch batch isV isM).deletedIds).rows,
      m.id ≠ n.id := by
    intro m hm hmid
    rw [deleteEach_rows] at hm
    have h2 := (List.mem_filter.mp hm).2
    rw [hmid] at h2
    have h3 : (dispatch batch isV isM).deletedIds.contains n.id = true :=
      List.elem_iff.mpr hdel
    rw [h3] at h2
    cases h2
  have hwfA : wf (deleteEach s (dispatch batch isV isM).deletedIds) :=
    wf_deleteEach _ s hwf
  have hjA : n.id < (deleteEach s (dispatch batch isV isM).deletedIds).nextId := by
    rw [deleteEach_nextId]
    exact hwf.2.1 n (hsub n hn)
  have hpersist : ∀ ops, ∀ m ∈ (insertSeq
      (deleteEach s (dispatch batch isV isM).deletedIds) ops).rows, m.id ≠ n.id :=
    fun ops => insertSeq_no_id ops _ n.id hwfA hjA hafter
  refine ⟨hdel, ?_, ?_, ?_, ?_, hpersist, ?_, ?_⟩
  · rw [dispatch_toastBatch]
    intro hmem
    have := List.mem_of_mem_filter hmem
    rw [List.mem_append] at this
    rcases this with h | h
    · exact hnotrem (List.mem_of_mem_filter h)
    · exact hnotrem (List.mem_of_mem_filter h)
  · rw [dispatch_normalEmit]
    intro hmem
    exact hnotrem (List.mem_of_mem_filter hmem)
  · rw [dispatch_mutedFocusEmit]
    intro hmem
    exact hnotrem (List.mem_of_mem_filter (List.mem_of_mem_filter hmem))
  · intro m hml hmid
    rw [dispatch_focusTarget] at hml
    have hma := mem_of_getLast_opt _ m hml
    have hmrem := List.mem_of_mem_filter (List.mem_of_mem_filter hma)
    have hmb : m ∈ batch := List.mem_of_mem_filter hmrem
    have : m = n := pairwise_id_inj batch hpw m n hmb hn hmid
    subst this
    exact hnotrem hmrem
  · intro ops limit m hm hmid
    exact hpersist ops m (mem_get_notifications _ limit m hm) hmid
  · intro ops
    rw [get_unread_count]
    congr 1
    apply List.filter_congr
    intro r hr
    have hne : r.id ≠ n.id := hpersist ops r hr
    have hbne : (r.id != n.id) = true := by simpa [bne_iff_ne] using hne
    rw [hbne, Bool.and_true]

/-- Witness for C5: with every surface reported visible, the single row of a
one-row store is suppressed: deleted and kept out of the toast batch. -/
theorem active_surface_suppression_witness :
    (mkNotif 1 0 (exArgs "only" "p" false)).id ∈
      (dispatch (get_notifications_after_id exStoreOne 0)
        (fun _ => true) (fun _ => false)).deletedIds
    ∧ mkNotif 1 0 (exArgs "only" "p" false) ∉
      (dispatch (get_notifications_after_id exStoreOne 0)
        (fun _ => true) (fun _ => false)).toastBatch := by
  have hwf : wf exStoreOne :=
    wf_insertSeq [exArgs "only" "p" false] emptyStore wf_emptyStore
  have h := active_surface_suppression exStoreOne 0 (fun _ => true) (fun _ => false)
    (mkNotif 1 0 (exArgs "only" "p" false)) hwf (by decide) rfl
  exact ⟨h.1, h.2.1⟩

/-! ## C6: ordering of the dispatched batch -/

/-- C6 counterexample: a batch holding a force-focus row (id 1) and a normal
row (id 2), with nothing suppressed or muted, is emitted for toast display as
normal-then-force-focus, i.e. ids `[2, 1]` — not ascending by id. -/
theorem toast_order_mixed_not_ascending :
    ((dispatch (get_notifications_after_id exStoreMixed 0)
        (fun _ => false) (fun _ => false)).toastBatch.map (fun n => n.id)) = [2, 1]
    ∧ ¬ List.Pairwise (fun a b => a.id < b.id)
        (dispatch (get_notifications_after_id exStoreMixed 0)
          (fun _ => false) (fun _ => false)).toastBatch := by
  exact ⟨by decide, by decide⟩

/-- C6 (amended): the toast batch of a dispatch is the concatenation of the
unmuted non-force-focus rows followed by the unmuted force-focus rows; each of
the two segments preserves the store's ascending-id order (as do the record
emits), and for a homogeneous batch — all force-focus or all non-force-focus —
the whole emitted sequence is ascending by id; a mixed batch, however, is
reordered across the segment boundary. -/
theorem toast_order_amended (s : Store) (K : Nat) (isV isM : Notification → Bool)
    (hwf : wf s) :
    ((dispatch (get_notifications_after_id s K) isV isM).toastBatch =
        (((get_notifications_after_id s K).filter (fun x => !isV x)).filter
            (fun x => !x.force_focus)).filter (fun x => !isM x)
          ++ (((get_notifications_after_id s K).filter (fun x => !isV x)).filter
            (fun x => x.force_focus)).filter (fun x => !isM x))
    ∧ List.Pairwise (fun a b => a.id < b.id)
        ((((get_notifications_after_id s K).filter (fun x => !isV x)).filter
          (fun x => !x.force_focus)).filter (fun x => !isM x))
    ∧ List.Pairwise (fun a b => a.id < b.id)
        ((((get_notifications_after_id s K).filter (fun x => !isV x)).filter
          (fun x => x.force_focus)).filter (fun x => !isM x))
    ∧ List.Pairwise (fun a b => a.id < b.id)
        (dispatch (get_notifications_after_id s K) isV isM).normalEmit
    ∧ List.Pairwise (fun a b => a.id < b.id)
        (dispatch (get_notifications_after_id s K) isV isM).mutedFocusEmit
    ∧ ((∀ x ∈ get_notifications_after_id s K, x.force_focus = false) →
        List.Pairwise (fun a b => a.id < b.id)
          (dispatch (get_notifications_after_id s K) isV isM).toastBatch)
    ∧ ((∀ x ∈ get_notifications_after_id s K, x.force_focus = true) →
        List.Pairwise (fun a b => a.id < b.id)
          (dispatch (get_notifications_after_id s K) isV isM).toastBatch) := by
  set batch := get_notifications_after_id s K with hbatch
  have hfil := after_id_eq_filter s K hwf
  have hpw : List.Pairwise (fun a b => a.id < b.id) batch := by
    rw [hbatch, hfil]; exact hwf.2.2.filter _
  have hsplit : (dispatch batch isV isM).toastBatch =
      ((batch.filter (fun x => !isV x)).filter (fun x => !x.force_focus)).filter
        (fun x => !isM x)
      ++ ((batch.filter (fun x => !isV x)).filter (fun x => x.force_focus)).filter
        (fun x => !isM x) := by
    rw [dispatch_toastBatch, List.filter_append]
  refine ⟨hsplit, ((hpw.filter _).filter _).filter _, ((hpw.filter _).filter _).filter _,
    ?_, ?_, ?_, ?_⟩
  · rw [dispatch_normalEmit]
    exact (hpw.filter _).filter _
  · rw [dispatch_mutedFocusEmit]
    exact ((hpw.filter _).filter _).filter _
  · intro hall
    have hfoc : (batch.filter (fun x => !isV x)).filter (fun x => x.force_focus) = [] := by
      rw [List.filter_eq_nil_iff]
      intro x hx
      rw [hall x (List.mem_of_mem_filter hx)]
      simp
    rw [hsplit, hfoc]
    simp only [List.filter_nil, List.append_nil]
    exact ((hpw.filter _).filter _).filter _
  · intro hall
    have hnor : (batch.filter (fun x => !isV x)).filter (fun x => !x.force_focus) = [] := by
      rw [List.filter_eq_nil_iff]
      intro x hx
      rw [hall x (List.mem_of_mem_filter hx)]
      simp
    rw [hsplit, hnor]
    simp only [List.filter_nil, List.nil_append]
    exact ((hpw.filter _).filter _).filter _

/-- Witness for C6 on the mixed two-row store: the toast batch splits into the
stated segments, and the record emit is ascending. -/
theorem toast_order_amended_witness :
    List.Pairwise (fun a b => a.id < b.id)
      (dispatch (get_notifications_after_id exStoreMixed 0)
        (fun _ => false) (fun _ => false)).normalEmit := by
  have hwf : wf exStoreMixed :=
    wf_insertSeq [exArgs "ff" "a" true, exArgs "plain" "b" false] emptyStore wf_emptyStore
  exact (toast_order_amended exStoreMixed 0 (fun _ => false) (fun _ => false) hwf).2.2.2.1

/-! ## C7: LIFO display order of the toast queue -/

/-- C7: inserting A (channel p1), B (p2), C (p3) in that order into the empty
store and triggering a fresh dispatch (cursor initialized from the empty
store's max id, nothing suppressed or muted) hands the toast batch to
`show_notifications` on the hidden empty queue, which replaces the queue with
the batch in last-in-first-out order: display order [C, B, A], the most
recent notification at index 0. -/
theorem lifo_display_order :
    (show_notifications ⟨[], 0, false⟩
      (dispatch (checkNew ⟨get_max_id emptyStore, insertSeq emptyStore exOpsLifo⟩).2
        (fun _ => false) (fun _ => false)).toastBatch).queue =
      [mkNotif 3 2 (exArgs "C" "p3" false), mkNotif 2 1 (exArgs "B" "p2" false),
       mkNotif 1 0 (exArgs "A" "p1" false)]
    ∧ (show_notifications ⟨[], 0, false⟩
      (dispatch (checkNew ⟨get_max_id emptyStore, insertSeq emptyStore exOpsLifo⟩).2
        (fun _ => false) (fun _ => false)).toastBatch).current_index = 0 := by
  exact ⟨by decide, by decide⟩

/-! ## C8: watcher error atomicity -/

/-- C8: a dispatch cycle whose `list_after` query fails behaves exactly like
an empty cycle: the cursor and the store are unchanged and nothing is
dispatched or deleted (the same triple an empty successful cycle produces),
and the rows it would have delivered are delivered unchanged by the next
successful trigger. -/
theorem watcher_error_atomicity (isV isM : Notification → Bool)
    (cursor : Nat) (s : Store) :
    check_cycle true isV isM cursor s = (cursor, s, none)
    ∧ (get_notifications_after_id s cursor = [] →
        check_cycle false isV isM cursor s = (cursor, s, none))
    ∧ check_cycle false isV isM
        (check_cycle true isV isM cursor s).1
        (check_cycle true isV isM cursor s).2.1 =
      check_cycle false isV isM cursor s := by
  refine ⟨rfl, ?_, rfl⟩
  intro h
  simp [check_cycle, h]

/-- Witness for C8 on the one-row store: the failing cycle is the identity,
and the empty successful cycle (cursor already at the max id) is too. -/
theorem watcher_error_atomicity_witness :
    check_cycle true (fun _ => false) (fun _ => false) 0 exStoreOne =
      (0, exStoreOne, none)
    ∧ check_cycle false (fun _ => false) (fun _ => false) 1 exStoreOne =
      (1, exStoreOne, none) := by
  refine ⟨(watcher_error_atomicity (fun _ => false) (fun _ => false) 0 exStoreOne).1, ?_⟩
  exact (watcher_error_atomicity (fun _ => false) (fun _ => false) 1 exStoreOne).2.1
    (by decide)

end Agentoast
